import Mathlib

/-!
Verification of the ShackStats periodic rollup and incremental-publish
pipeline (prepublish.sh embedded TypeScript and src/buildSite.ts).

Shallow embedding conventions:
* Post-count tally rows are `PostCountRow` with `Nat` counts (JS numbers
  holding non-negative integer counts) and an `Int` day number for the
  period start date (days since 1970-01-01; ISO "YYYY-MM-DD" strings are
  in order-preserving bijection with day numbers in the era the pipeline
  covers).
* Fallible JS code (thrown errors, rejected promises) is embedded with
  `Except String`.
* The `Dictionary` helper class (a plain keyed map, not present in the
  repository sources) is embedded as association-list lookups; all the
  dictionaries that matter here are keyed by values that are unique in
  the corresponding list (dates grouped by date, filenames emitted once).
-/

namespace ShackStats

/-- Tally row for the post-count artifacts.  Matches the row objects built
by buildPostCountsFile / buildUserPostCountsFiles / buildPeriodUserPostCountsFiles
(the user_id field carried by the per-author rows plays no role in the
claims and is omitted). -/
structure PostCountRow where
  date : Int
  total_post_count : Nat
  ontopic_post_count : Nat
  nws_post_count : Nat
  stupid_post_count : Nat
  political_post_count : Nat
  tangent_post_count : Nat
  informative_post_count : Nat
deriving DecidableEq, Repr

/-- Freshly initialized row with all seven counts zero, as constructed at
each new (period, partition) group in the source. -/
def zeroRow (date : Int) : PostCountRow :=
  { date := date
    total_post_count := 0
    ontopic_post_count := 0
    nws_post_count := 0
    stupid_post_count := 0
    political_post_count := 0
    tangent_post_count := 0
    informative_post_count := 0 }

/-- Sum of the six category buckets of a row. -/
def sumCats (r : PostCountRow) : Nat :=
  r.ontopic_post_count + r.nws_post_count + r.stupid_post_count +
    r.political_post_count + r.tangent_post_count + r.informative_post_count

/-- Embedding of tallyByCategory from prepublish.sh: a switch over the
category code with NO default case (an unrecognized code falls through,
updating no bucket), followed by the unconditional addition of the count
to total_post_count. -/
def tallyByCategory (category count : Nat) (csvRow : PostCountRow) : PostCountRow :=
  let r :=
    match category with
    | 1 => { csvRow with ontopic_post_count := csvRow.ontopic_post_count + count }
    | 2 => { csvRow with nws_post_count := csvRow.nws_post_count + count }
    | 3 => { csvRow with stupid_post_count := csvRow.stupid_post_count + count }
    | 4 => { csvRow with political_post_count := csvRow.political_post_count + count }
    | 5 => { csvRow with tangent_post_count := csvRow.tangent_post_count + count }
    | 6 => { csvRow with informative_post_count := csvRow.informative_post_count + count }
    | _ => csvRow
  { r with total_post_count := r.total_post_count + count }

/-- Embedding of updatePostCounts from buildSite.ts: each recognized
category adds the count to its bucket and to total_post_count; the default
case throws (Unrecognized category). -/
def updatePostCounts (category count : Nat) (currentRow : PostCountRow) :
    Except String PostCountRow :=
  match category with
  | 1 => .ok { currentRow with
      ontopic_post_count := currentRow.ontopic_post_count + count
      total_post_count := currentRow.total_post_count + count }
  | 2 => .ok { currentRow with
      nws_post_count := currentRow.nws_post_count + count
      total_post_count := currentRow.total_post_count + count }
  | 3 => .ok { currentRow with
      stupid_post_count := currentRow.stupid_post_count + count
      total_post_count := currentRow.total_post_count + count }
  | 4 => .ok { currentRow with
      political_post_count := currentRow.political_post_count + count
      total_post_count := currentRow.total_post_count + count }
  | 5 => .ok { currentRow with
      tangent_post_count := currentRow.tangent_post_count + count
      total_post_count := currentRow.total_post_count + count }
  | 6 => .ok { currentRow with
      informative_post_count := currentRow.informative_post_count + count
      total_post_count := currentRow.total_post_count + count }
  | _ => .error ("Unrecognized category: " ++ Nat.repr category)

/-- Tally row for one (period, partition) group as produced by the
prepublish.sh aggregation loops: a fresh zero row folded through
tallyByCategory over the group's (category, post_count) pairs, after
which the row is written to the artifact. -/
def tallyRows (events : List (Nat × Nat)) (d : Int) : PostCountRow :=
  events.foldl (fun r e => tallyByCategory e.1 e.2 r) (zeroRow d)

/-- Tally row for one group as produced by the buildSite.ts aggregation
loops: a fresh zero row folded through updatePostCounts, propagating the
Unrecognized-category error. -/
def updateRows (events : List (Nat × Nat)) (d : Int) : Except String PostCountRow :=
  events.foldlM (fun r e => updatePostCounts e.1 e.2 r) (zeroRow d)

lemma updatePostCounts_eq_tally {c : Nat} (hc1 : 1 ≤ c) (hc6 : c ≤ 6)
    (n : Nat) (r : PostCountRow) :
    updatePostCounts c n r = .ok (tallyByCategory c n r) := by
  interval_cases c <;> rfl

lemma tallyByCategory_sumCats {c : Nat} (hc1 : 1 ≤ c) (hc6 : c ≤ 6)
    (n : Nat) (r : PostCountRow) :
    sumCats (tallyByCategory c n r) = sumCats r + n := by
  interval_cases c <;> simp [tallyByCategory, sumCats] <;> omega

lemma tallyByCategory_total (c n : Nat) (r : PostCountRow) :
    (tallyByCategory c n r).total_post_count = r.total_post_count + n := by
  unfold tallyByCategory
  dsimp only
  split <;> rfl

lemma tallyRows_invariant (events : List (Nat × Nat))
    (h : ∀ e ∈ events, 1 ≤ e.1 ∧ e.1 ≤ 6) (r : PostCountRow)
    (hr : r.total_post_count = sumCats r) :
    (events.foldl (fun r e => tallyByCategory e.1 e.2 r) r).total_post_count =
      sumCats (events.foldl (fun r e => tallyByCategory e.1 e.2 r) r) := by
  induction events generalizing r with
  | nil => simpa using hr
  | cons e es ih =>
      simp only [List.foldl_cons]
      refine ih (fun x hx => h x (List.mem_cons_of_mem _ hx)) _ ?_
      have he := h e (List.mem_cons_self _ _)
      rw [tallyByCategory_total, tallyByCategory_sumCats he.1 he.2, hr]

lemma updateRows_eq_tallyRows (events : List (Nat × Nat))
    (h : ∀ e ∈ events, 1 ≤ e.1 ∧ e.1 ≤ 6) (r : PostCountRow) :
    events.foldlM (fun r e => updatePostCounts e.1 e.2 r) r =
      Except.ok (events.foldl (fun r e => tallyByCategory e.1 e.2 r) r) := by
  induction events generalizing r with
  | nil => rfl
  | cons e es ih =>
      have he := h e (List.mem_cons_self _ _)
      simp only [List.foldlM_cons, List.foldl_cons,
        updatePostCounts_eq_tally he.1 he.2]
      exact ih (fun x hx => h x (List.mem_cons_of_mem _ hx)) _

/-- C1 (counterexample): an event group containing a category-7 row is
tallied by prepublish.sh's tallyByCategory into a row (written to the
per-author artifact) whose total_post_count is 1 while the six category
buckets sum to 0, so the claimed invariant fails as stated. -/
theorem tally_total_ne_sumCats_on_cat7 :
    (tallyRows [(7, 1)] 0).total_post_count = 1 ∧
      sumCats (tallyRows [(7, 1)] 0) = 0 ∧
      (tallyRows [(7, 1)] 0).total_post_count ≠ sumCats (tallyRows [(7, 1)] 0) := by
  refine ⟨rfl, rfl, by decide⟩

/-- C1 (amended): for every event group whose category codes all lie in
1..6, the buildSite.ts aggregation (updatePostCounts) succeeds and
produces exactly the prepublish.sh tally, and the resulting row satisfies
the invariant total_post_count = sum of the six category buckets. -/
theorem tally_total_eq_sumCats (events : List (Nat × Nat)) (d : Int)
    (h : ∀ e ∈ events, 1 ≤ e.1 ∧ e.1 ≤ 6) :
    updateRows events d = Except.ok (tallyRows events d) ∧
      (tallyRows events d).total_post_count = sumCats (tallyRows events d) := by
  refine ⟨updateRows_eq_tallyRows events h _, ?_⟩
  exact tallyRows_invariant events h (zeroRow d) rfl

/-- C1 (witness): the amended invariant evaluated on a concrete group. -/
theorem tally_total_eq_sumCats_witness :
    updateRows [(1, 2), (3, 1)] 0 = Except.ok (tallyRows [(1, 2), (3, 1)] 0) ∧
      (tallyRows [(1, 2), (3, 1)] 0).total_post_count =
        sumCats (tallyRows [(1, 2), (3, 1)] 0) :=
  tally_total_eq_sumCats [(1, 2), (3, 1)] 0 (by decide)

/-- C2: on an event row with category code 7, buildSite.ts's
updatePostCounts throws the Unrecognized-category error, but
prepublish.sh's tallyByCategory raises no error at all: it returns
normally, adding the count to total_post_count and to no category bucket,
so that aggregation path silently counts the event without a bucket and
the run does not abort. -/
theorem cat7_not_fatal_in_tallyByCategory :
    tallyByCategory 7 1 (zeroRow 0) = { zeroRow 0 with total_post_count := 1 } ∧
      updatePostCounts 7 1 (zeroRow 0) = .error "Unrecognized category: 7" ∧
      tallyRows [(7, 1)] 0 = { zeroRow 0 with total_post_count := 1 } := by
  refine ⟨rfl, rfl, rfl⟩

/-! Calendar model.  Day numbers count days since 1970-01-01 (the civil
conversions follow the standard Gregorian era algorithm also used by the
moment library and by Postgres DATE_TRUNC). -/

/-- Day number of a civil date (days since 1970-01-01). -/
def daysFromCivil (y m d : Int) : Int :=
  let yy := if m ≤ 2 then y - 1 else y
  let era := (if 0 ≤ yy then yy else yy - 399) / 400
  let yoe := yy - era * 400
  let mp := if m > 2 then m - 3 else m + 9
  let doy := (153 * mp + 2) / 5 + d - 1
  let doe := yoe * 365 + yoe / 4 - yoe / 100 + doy
  era * 146097 + doe - 719468

/-- Civil date (year, month, day) of a day number. -/
def civilFromDays (z : Int) : Int × Int × Int :=
  let zz := z + 719468
  let era := (if 0 ≤ zz then zz else zz - 146096) / 146097
  let doe := zz - era * 146097
  let yoe := (doe - doe / 1460 + doe / 36524 - doe / 146096) / 365
  let y := yoe + era * 400
  let doy := doe - (365 * yoe + yoe / 4 - yoe / 100)
  let mp := (5 * doy + 2) / 153
  let d := doy - (153 * mp + 2) / 5 + 1
  let m := if mp < 10 then mp + 3 else mp - 9
  (if m ≤ 2 then y + 1 else y, m, d)

/-- Day of week as moment's .day(): 0 = Sunday .. 6 = Saturday
(1970-01-01 was a Thursday). -/
def dayOfWeek (z : Int) : Int := (z + 4) % 7

/-- Day of month as moment's .date(). -/
def dayOfMonth (z : Int) : Int := (civilFromDays z).2.2

/-- Year of a day number. -/
def yearOf (z : Int) : Int := (civilFromDays z).1

/-- Day of year as moment's .dayOfYear() (1 on January 1st). -/
def dayOfYear (z : Int) : Int := z - daysFromCivil (yearOf z) 1 1 + 1

/-- Day number of 1999-06-01, the fixed beginning of history used by
getAllPeriods (moment("1999-06-01")). -/
def epochStartDay : Int := daysFromCivil 1999 6 1

/-- Number of loop iterations for a first..last day scan:
lastDay.diff(firstDay, "days") + 1, clamped at zero when the range is
empty (the JS for-loop runs no iterations for a non-positive bound). -/
def numDaysBetween (first last : Int) : Nat := (last - first + 1).toNat

/-- Embedding of getAllDays from prepublish.sh: every date from startDate
to endDate inclusive, in ascending order. -/
def getAllDays (first last : Int) : List Int :=
  (List.range (numDaysBetween first last)).map (fun (i : Nat) => first + (i : Int))

/-- Granularity nouns of the PERIODS table. -/
inductive Gran
  | day
  | week
  | month
  | year
deriving DecidableEq, Repr

/-- Period instance as produced by getAllPeriods; the filenameSuffix
field of the source is the noun and the date formatted YYYYMMDD and is
determined by these two fields. -/
structure PeriodEntry where
  noun : Gran
  date : Int
deriving DecidableEq, Repr

/-- Entries that one iteration of the getAllPeriods loop pushes for a
given date: always a day period; a week period when the date is a
Sunday (date.day() == 0, commented "sunday (first of the week)" in the
source); a month period on the first of the month; a year period on the
first of the year. -/
def dayEntries (date : Int) : List PeriodEntry :=
  [PeriodEntry.mk Gran.day date]
    ++ (if dayOfWeek date = 0 then [PeriodEntry.mk Gran.week date] else [])
    ++ (if dayOfMonth date = 1 then [PeriodEntry.mk Gran.month date] else [])
    ++ (if dayOfYear date = 1 then [PeriodEntry.mk Gran.year date] else [])

/-- Embedding of getAllPeriods: scans every day from 1999-06-01 through
lastDay ("now"), pushing the entries of dayEntries in order. -/
def getAllPeriods (lastDay : Int) : List PeriodEntry :=
  (List.range (numDaysBetween epochStartDay lastDay)).flatMap
    (fun (i : Nat) => dayEntries (epochStartDay + (i : Int)))

/-- Embedding of the per-day gap fill of buildPostCountsFile and
buildUserPostCountsFiles: one output row per date in getAllDays, taking
the input row keyed by that date when present and a zero row otherwise. -/
def fillDays (rows : List PostCountRow) (first last : Int) : List PostCountRow :=
  (getAllDays first last).map (fun d =>
    match rows.find? (fun r => r.date == d) with
    | some r => r
    | none => zeroRow d)

/-- Row of the (daily|weekly|monthly|yearly)_poster_counts.csv artifacts. -/
structure PosterCountRow where
  date : Int
  poster_count : Nat
deriving DecidableEq, Repr

/-- Embedding of the gap fill of buildPosterCountFiles: one output row
per period of the requested granularity in getAllPeriods, taking the
input row keyed by the period's date when present and a zero-count row
otherwise. -/
def fillPeriods (noun : Gran) (rows : List PosterCountRow) (lastDay : Int) :
    List PosterCountRow :=
  ((getAllPeriods lastDay).filter (fun p => p.noun == noun)).map (fun p =>
    match rows.find? (fun r => r.date == p.date) with
    | some r => r
    | none => { date := p.date, poster_count := 0 })

/-- JavaScript Array.prototype.reduce with no initial value: throws on an
empty array, otherwise folds from the first element. -/
def jsReduce {α : Type} (f : α → α → α) : List α → Except String α
  | [] => .error "Reduce of empty array with no initial value"
  | x :: xs => .ok (xs.foldl f x)

/-- Embedding of the fill-in-missing-days step of buildPostCountsFile in
prepublish.sh: minDate and maxDate are reduced from the input rows with
no initial value (throwing on an empty series), then the series is
gap-filled over that range. -/
def buildPostCountsRows (rows : List PostCountRow) :
    Except String (List PostCountRow) := do
  let minDate ← jsReduce (fun a b => if a < b then a else b) (rows.map (·.date))
  let maxDate ← jsReduce (fun a b => if a < b then b else a) (rows.map (·.date))
  pure (fillDays rows minDate maxDate)

/-- Postgres DATE_TRUNC('week', ·): the Monday on or before the date. -/
def mondayWeekTrunc (z : Int) : Int := z - ((z + 3) % 7)

/-- Embedding of the dateTruncExpr used for week granularity in
buildPosterCountFiles and buildPeriodUserPostCountsFiles:
DATE_TRUNC('week', date + 1 day) - 1 day. -/
def weekDateTruncExpr (z : Int) : Int := mondayWeekTrunc (z + 1) - 1

/-- Embedding of moment(d).startOf("week") (default locale): the Sunday
on or before the date, used for weekly grouping in prepublish.sh's
buildPeriodUserPostCountsFiles. -/
def momentStartOfWeek (z : Int) : Int := z - dayOfWeek z

lemma mem_dayEntries {p : PeriodEntry} {d : Int} (hp : p ∈ dayEntries d) :
    p.date = d ∧ (p.noun = Gran.week → dayOfWeek d = 0) := by
  unfold dayEntries at hp
  simp only [List.mem_append, List.mem_singleton, List.mem_ite_nil_right] at hp
  rcases hp with ((h | ⟨hw, h⟩) | ⟨hm, h⟩) | ⟨hy, h⟩ <;> subst h <;> simp_all

lemma dayEntries_filter_len (g : Gran) (d : Int) :
    ((dayEntries d).filter (fun p => p.noun == g)).length ≤ 1 := by
  unfold dayEntries
  cases g <;> split_ifs <;> simp [List.filter_append]

/-- C4: week-granularity period starts produced by the code fall on
Sunday, not Monday.  Every week entry of getAllPeriods (which also names
the weekly scoreboard files through its filenameSuffix) has day-of-week 0
(Sunday); the SQL week-truncation expression used by
buildPosterCountFiles and buildPeriodUserPostCountsFiles
(DATE_TRUNC('week', date + 1 day) - 1 day) and the moment
startOf("week") grouping both land on Sunday as well, whereas the Monday
on or before the anchor (plain DATE_TRUNC('week'), day-of-week 1) is what
the claim asserts.  Concretely, with history running through 1999-06-07
(a Monday), a week period is emitted for Sunday 1999-06-06 and none for
the Monday. -/
theorem week_periods_start_sunday_not_monday :
    (∀ lastDay : Int,
        ((getAllPeriods lastDay).filter (fun p => p.noun == Gran.week)).all
          (fun p => dayOfWeek p.date == 0) = true) ∧
      (∀ z : Int, dayOfWeek (weekDateTruncExpr z) = 0) ∧
      (∀ z : Int, dayOfWeek (momentStartOfWeek z) = 0) ∧
      (∀ z : Int, dayOfWeek (mondayWeekTrunc z) = 1) ∧
      PeriodEntry.mk Gran.week (epochStartDay + 5) ∈ getAllPeriods (epochStartDay + 6) ∧
      dayOfWeek (epochStartDay + 5) = 0 ∧
      PeriodEntry.mk Gran.week (epochStartDay + 6) ∉ getAllPeriods (epochStartDay + 6) ∧
      dayOfWeek (epochStartDay + 6) = 1 := by
  refine ⟨?_, ?_, ?_, ?_, ?_, ?_, ?_, ?_⟩
  · intro lastDay
    rw [List.all_eq_true]
    intro p hp
    rw [List.mem_filter] at hp
    obtain ⟨hmem, hnoun⟩ := hp
    simp only [getAllPeriods, List.mem_flatMap] at hmem
    obtain ⟨i, _, hpi⟩ := hmem
    have h := mem_dayEntries hpi
    have hw : p.noun = Gran.week := by simpa using hnoun
    rw [beq_iff_eq, h.1]
    exact h.2 hw
  · intro z
    unfold dayOfWeek weekDateTruncExpr mondayWeekTrunc
    omega
  · intro z
    unfold momentStartOfWeek dayOfWeek
    omega
  · intro z
    unfold dayOfWeek mondayWeekTrunc
    omega
  · decide
  · decide
  · decide
  · decide

lemma pairwise_of_length_le_one {α : Type} {R : α → α → Prop} :
    ∀ {l : List α}, l.length ≤ 1 → l.Pairwise R
  | [], _ => List.Pairwise.nil
  | [_], _ => by simp
  | _ :: _ :: _, h => by simp at h

lemma fillDays_dates (rows : List PostCountRow) (first last : Int) :
    (fillDays rows first last).map (fun r => r.date) = getAllDays first last := by
  unfold fillDays
  rw [List.map_map]
  have h : ∀ d ∈ getAllDays first last,
      ((fun r => r.date) ∘ fun d =>
        (match rows.find? (fun r => r.date == d) with
          | some r => r
          | none => zeroRow d)) d = id d := by
    intro d _
    simp only [Function.comp_apply, id]
    cases hf : rows.find? (fun r => r.date == d) with
    | none => rfl
    | some r =>
        have := List.find?_some hf
        simpa using this
  rw [List.map_congr_left h, List.map_id]

lemma fillPeriods_dates (g : Gran) (rows : List PosterCountRow) (lastDay : Int) :
    (fillPeriods g rows lastDay).map (fun r => r.date) =
      (((getAllPeriods lastDay).filter (fun p => p.noun == g)).map (fun p => p.date)) := by
  unfold fillPeriods
  rw [List.map_map]
  apply List.map_congr_left
  intro p _
  simp only [Function.comp_apply]
  cases hf : rows.find? (fun r => r.date == p.date) with
  | none => rfl
  | some r =>
      have := List.find?_some hf
      simpa using this

lemma getAllDays_pairwise (first last : Int) :
    (getAllDays first last).Pairwise (· < ·) := by
  simp only [getAllDays, List.pairwise_map]
  refine (List.pairwise_lt_range _).imp ?_
  intro a b h
  omega

lemma getAllPeriods_filter_dates_pairwise (g : Gran) (lastDay : Int) :
    ((((getAllPeriods lastDay).filter (fun p => p.noun == g)).map (fun p => p.date))).Pairwise
      (· < ·) := by
  rw [List.pairwise_map]
  unfold getAllPeriods
  rw [List.filter_flatMap]
  show List.Pairwise _ (List.flatten (List.map _ _))
  rw [List.pairwise_flatten]
  constructor
  · intro l hl
    rw [List.mem_map] at hl
    obtain ⟨i, _, rfl⟩ := hl
    exact pairwise_of_length_le_one (dayEntries_filter_len g _)
  · rw [List.pairwise_map]
    refine (List.pairwise_lt_range _).imp ?_
    intro i j hij x hx y hy
    have hx' := (mem_dayEntries (List.mem_of_mem_filter hx)).1
    have hy' := (mem_dayEntries (List.mem_of_mem_filter hy)).1
    rw [hx', hy']
    omega

/-- C3: both gap-fill routines are complete.  The per-day fill of
buildPostCountsFile / buildUserPostCountsFiles produces exactly one row
per date enumerated by getAllDays over the range, in strictly ascending
date order, and every enumerated date with no matching input row yields
the zero row (all seven counts zero).  The period fill of
buildPosterCountFiles produces exactly one row per period of the
requested granularity enumerated by getAllPeriods, in strictly ascending
period-start order, and every enumerated period with no matching input
row yields a zero-count row. -/
theorem gap_fill_one_row_per_period (rows : List PostCountRow) (first last : Int)
    (g : Gran) (prows : List PosterCountRow) (lastDay : Int) :
    ((fillDays rows first last).map (fun r => r.date) = getAllDays first last ∧
      ((fillDays rows first last).map (fun r => r.date)).Pairwise (· < ·) ∧
      ∀ d ∈ getAllDays first last,
        rows.find? (fun r => r.date == d) = none →
          zeroRow d ∈ fillDays rows first last ∧
            sumCats (zeroRow d) = 0 ∧ (zeroRow d).total_post_count = 0) ∧
    ((fillPeriods g prows lastDay).map (fun r => r.date) =
        ((getAllPeriods lastDay).filter (fun p => p.noun == g)).map (fun p => p.date) ∧
      ((fillPeriods g prows lastDay).map (fun r => r.date)).Pairwise (· < ·) ∧
      ∀ p ∈ getAllPeriods lastDay, p.noun = g →
        prows.find? (fun r => r.date == p.date) = none →
          PosterCountRow.mk p.date 0 ∈ fillPeriods g prows lastDay) := by
  refine ⟨⟨fillDays_dates rows first last, ?_, ?_⟩,
    fillPeriods_dates g prows lastDay, ?_, ?_⟩
  · rw [fillDays_dates]
    exact getAllDays_pairwise first last
  · intro d hd hmiss
    refine ⟨?_, rfl, rfl⟩
    unfold fillDays
    have h : (match rows.find? (fun r => r.date == d) with
        | some r => r
        | none => zeroRow d) = zeroRow d := by rw [hmiss]
    rw [← h]
    exact List.mem_map_of_mem _ hd
  · rw [fillPeriods_dates]
    exact getAllPeriods_filter_dates_pairwise g lastDay
  · intro p hp hg hmiss
    unfold fillPeriods
    have hpf : p ∈ (getAllPeriods lastDay).filter (fun p => p.noun == g) := by
      rw [List.mem_filter]
      exact ⟨hp, by simp [hg]⟩
    have h : (match prows.find? (fun r => r.date == p.date) with
        | some r => r
        | none => PosterCountRow.mk p.date 0) = PosterCountRow.mk p.date 0 := by
      rw [hmiss]
    rw [← h]
    exact List.mem_map_of_mem _ hpf

/-- C3 (witness): completeness of both fills evaluated on concrete empty
inputs and small ranges. -/
theorem gap_fill_one_row_per_period_witness :
    zeroRow 1 ∈ fillDays [] 0 2 ∧
      PosterCountRow.mk epochStartDay 0 ∈ fillPeriods Gran.day [] epochStartDay := by
  constructor
  · exact (((gap_fill_one_row_per_period [] 0 2 Gran.day [] 0).1).2.2 1 (by decide) rfl).1
  · exact ((gap_fill_one_row_per_period [] 0 2 Gran.day [] epochStartDay).2).2.2
      (PeriodEntry.mk Gran.day epochStartDay) (by decide) rfl rfl

/-- C8 (counterexample): on a series with zero input rows the
prepublish.sh fill step throws the JavaScript empty-reduce error while
computing minDate, so it produces no epoch-to-now zero-filled series (the
result is not a success value). -/
theorem buildPostCounts_empty_throws :
    buildPostCountsRows [] = Except.error "Reduce of empty array with no initial value" ∧
      Except.isOk (buildPostCountsRows []) = false :=
  ⟨rfl, rfl⟩

/-- C8 (amended): for an input series containing zero rows, the gap fill
fails rather than falling back: the min/max reduction of the empty series
throws and the error aborts the run. -/
theorem buildPostCounts_empty_aborts (rows : List PostCountRow) (h : rows = []) :
    buildPostCountsRows rows =
      Except.error "Reduce of empty array with no initial value" := by
  subst h
  rfl

/-- C8 (witness): the amended statement applied to the empty series. -/
theorem buildPostCounts_empty_aborts_witness :
    buildPostCountsRows [] =
      Except.error "Reduce of empty array with no initial value" :=
  buildPostCounts_empty_aborts [] rfl

/-! Manifest and incremental publisher (uploadFiles in prepublish.sh).
A manifest row carries filename and sha256 (the size column of
file_hashes.csv is not consulted by the diff). -/

/-- Row of the file_hashes.csv manifest as parsed by the upload step. -/
structure HashRow where
  filename : String
  sha256 : String
deriving DecidableEq, Repr

/-- Lookup of a filename's hash in the previously published manifest,
defaulting to the empty string when absent
(oldFileHashDict.lookup(filename, "")). -/
def oldHashLookup (old : List HashRow) (f : String) : String :=
  match old.find? (fun r => r.filename == f) with
  | some r => r.sha256
  | none => ""

/-- Changed set computed by uploadFiles: every new-manifest filename is
initially scheduled, then each filename whose fresh hash equals the
remotely recorded hash is removed.  The manifest lists each filename once
(buildFilesFile emits one row per globbed file), so the dictionary keyed
by filename is embedded as a filter over the row list. -/
def newFilesToUpload (old new : List HashRow) : List String :=
  (new.filter (fun x => !(oldHashLookup old x.filename == x.sha256))).map
    (fun x => x.filename)

/-- Filenames actually uploaded: the changed set plus the two manifest
artifacts, which uploadFiles pushes unconditionally. -/
def uploadedFilenames (old new : List HashRow) : List String :=
  newFilesToUpload old new ++ ["files.csv", "file_hashes.csv"]

/-- Embedding of the fetch-then-diff flow of uploadFiles: the remote
file_hashes.csv fetch either yields the previous manifest rows or an
error; on error the surrounding promise rejects (the getObject callback
calls reject(err)), which propagates out of uploadFiles and aborts the
run. -/
def uploadFilesResult (fetched : Except String (List HashRow))
    (newHashes : List HashRow) : Except String (List String) :=
  match fetched with
  | .error e => .error e
  | .ok old => .ok (uploadedFilenames old newHashes)

/-- C5 (counterexample): when the remote manifest fetch fails (e.g. no
prior manifest exists), uploadFiles propagates the error instead of
treating the previous manifest as empty: the run aborts with the fetch
error and no list of files to upload is produced, contradicting the
claimed schedule-everything fallback. -/
theorem manifest_fetch_failure_aborts :
    uploadFilesResult (Except.error "NoSuchKey") [HashRow.mk "users.csv" "aa"] =
        Except.error "NoSuchKey" ∧
      Except.isOk
        (uploadFilesResult (Except.error "NoSuchKey") [HashRow.mk "users.csv" "aa"]) =
        false :=
  ⟨rfl, rfl⟩

/-- C5 (amended): a failed fetch of the previously published manifest is
fatal — the error propagates unchanged out of the publish step (the run
exits non-zero) and nothing is scheduled for upload. -/
theorem manifest_fetch_failure_propagates (e : String) (newHashes : List HashRow) :
    uploadFilesResult (Except.error e) newHashes = Except.error e :=
  rfl

/-- C7: the diff excludes every filename whose fresh hash equals the hash
recorded in the remote manifest, and when every hash matches the computed
changed set is empty, so a second run over an unchanged artifact set
uploads no data artifact (only the two manifest files, which are pushed
unconditionally). -/
theorem idempotent_diff (old newHashes : List HashRow)
    (hnodup : (newHashes.map (fun r => r.filename)).Nodup) :
    (∀ x ∈ newHashes, oldHashLookup old x.filename = x.sha256 →
        x.filename ∉ newFilesToUpload old newHashes) ∧
      ((∀ x ∈ newHashes, oldHashLookup old x.filename = x.sha256) →
        newFilesToUpload old newHashes = []) := by
  constructor
  · intro x hx hmatch hmem
    unfold newFilesToUpload at hmem
    rw [List.mem_map] at hmem
    obtain ⟨y, hy, hyx⟩ := hmem
    rw [List.mem_filter] at hy
    obtain ⟨hymem, hypred⟩ := hy
    have hxy : y = x :=
      List.inj_on_of_nodup_map hnodup hymem hx hyx
    subst hxy
    rw [hmatch] at hypred
    simp at hypred
  · intro hall
    unfold newFilesToUpload
    have h : newHashes.filter
        (fun x => !(oldHashLookup old x.filename == x.sha256)) = [] := by
      rw [List.filter_eq_nil_iff]
      intro x hx
      rw [hall x hx]
      simp
    rw [h]
    rfl

/-- C7 (witness): re-running the diff over an identical one-file manifest
schedules nothing. -/
theorem idempotent_diff_witness :
    newFilesToUpload [HashRow.mk "users.csv" "aa"] [HashRow.mk "users.csv" "aa"] = [] := by
  have h := idempotent_diff [HashRow.mk "users.csv" "aa"]
    [HashRow.mk "users.csv" "aa"] (by decide)
  exact h.2 (by decide)

/-- C10: every filename the upload step touches is either listed in the
freshly built file_hashes.csv manifest or is one of the two manifest
artifacts themselves; a file present only in the remote manifest is never
uploaded (and the step performs no deletes at all). -/
theorem upload_touches_only_current_run (old newHashes : List HashRow) (f : String)
    (hf : f ∈ uploadedFilenames old newHashes) :
    f ∈ newHashes.map (fun r => r.filename) ∨
      f = "files.csv" ∨ f = "file_hashes.csv" := by
  unfold uploadedFilenames at hf
  rw [List.mem_append] at hf
  rcases hf with h | h
  · left
    unfold newFilesToUpload at h
    rw [List.mem_map] at h
    obtain ⟨x, hx, hxf⟩ := h
    subst hxf
    exact List.mem_map_of_mem _ (List.mem_of_mem_filter hx)
  · right
    simpa using h

/-- C10 (witness): the frame property evaluated on a concrete upload where
the remote manifest contains a file absent locally. -/
theorem upload_touches_only_current_run_witness :
    "users.csv" ∈ [HashRow.mk "users.csv" "bb"].map (fun r => r.filename) ∨
      "users.csv" = "files.csv" ∨ "users.csv" = "file_hashes.csv" :=
  upload_touches_only_current_run [HashRow.mk "gone.csv" "cc"]
    [HashRow.mk "users.csv" "bb"] "users.csv" (by decide)

/-! CSV writing.  Values are modelled as lists of characters; JS
Number.prototype.toString on a non-negative integer renders decimal
digits, embedded by natDigits below (fuel-structured so that it reduces
by evaluation; the fuel n + 1 always suffices since the recursion divides
by 10). -/

/-- Decimal digit characters of n, most significant first, with explicit
fuel. -/
def natDigitsGo (fuel n : Nat) : List Char :=
  match fuel with
  | 0 => []
  | fuel + 1 =>
      if n < 10 then [Char.ofNat (48 + n)]
      else natDigitsGo fuel (n / 10) ++ [Char.ofNat (48 + n % 10)]

/-- Decimal rendering of a natural number (JS toString for non-negative
integers). -/
def natDigits (n : Nat) : List Char := natDigitsGo (n + 1) n

/-- Value of a digit string, inverse of natDigits. -/
def digitsVal (l : List Char) : Nat := l.foldl (fun a c => a * 10 + (c.toNat - 48)) 0

lemma char_ofNat_digit_toNat : ∀ d, d < 10 → (Char.ofNat (48 + d)).toNat = 48 + d := by
  decide

lemma digitsVal_roundtrip : ∀ fuel n, n < fuel → digitsVal (natDigitsGo fuel n) = n := by
  intro fuel
  induction fuel with
  | zero => intro n h; omega
  | succ f ih =>
      intro n h
      unfold natDigitsGo
      by_cases h10 : n < 10
      · simp only [h10, if_true]
        simp [digitsVal, char_ofNat_digit_toNat n h10]
      · simp only [h10, if_false]
        have hdiv : n / 10 < f := by omega
        unfold digitsVal
        rw [List.foldl_append]
        have hmod : (Char.ofNat (48 + n % 10)).toNat = 48 + n % 10 :=
          char_ofNat_digit_toNat (n % 10) (by omega)
        simp only [List.foldl_cons, List.foldl_nil, hmod]
        have := ih (n / 10) hdiv
        unfold digitsVal at this
        rw [this]
        omega

lemma natDigits_inj {a b : Nat} (h : natDigits a = natDigits b) : a = b := by
  have ha := digitsVal_roundtrip (a + 1) a (by omega)
  have hb := digitsVal_roundtrip (b + 1) b (by omega)
  unfold natDigits at h
  rw [h] at ha
  rw [hb] at ha
  omega

lemma natDigitsGo_ne_nil (fuel n : Nat) (h : n < fuel) : natDigitsGo fuel n ≠ [] := by
  match fuel with
  | 0 => omega
  | f + 1 =>
      unfold natDigitsGo
      by_cases h10 : n < 10 <;> simp [h10]

lemma natDigits_ne_nil (n : Nat) : natDigits n ≠ [] :=
  natDigitsGo_ne_nil (n + 1) n (by omega)

lemma mem_natDigitsGo {c : Char} : ∀ fuel n, c ∈ natDigitsGo fuel n →
    ∃ d, d < 10 ∧ c = Char.ofNat (48 + d) := by
  intro fuel
  induction fuel with
  | zero => intro n h; simp [natDigitsGo] at h
  | succ f ih =>
      intro n h
      unfold natDigitsGo at h
      by_cases h10 : n < 10
      · simp only [h10, if_true, List.mem_singleton] at h
        exact ⟨n, h10, h⟩
      · simp only [h10, if_false, List.mem_append, List.mem_singleton] at h
        rcases h with h | h
        · exact ih (n / 10) h
        · exact ⟨n % 10, by omega, h⟩

/-- Embedding of the JS string value.toString().replace of quoteCsvValue:
String.prototype.replace with a plain-string pattern substitutes only the
FIRST occurrence, here of the double-quote character by two double
quotes. -/
def replaceFirstQuote : List Char → List Char
  | [] => []
  | c :: rest =>
      if c = '"' then '"' :: '"' :: rest
      else c :: replaceFirstQuote rest

/-- CSV field value: JS Number.isInteger distinguishes integer numbers
from everything else (all the string-valued fields). -/
inductive CsvValue
  | int (n : Int)
  | str (s : List Char)
deriving DecidableEq, Repr

/-- JS toString of an integer value. -/
def intToChars (n : Int) : List Char :=
  if n < 0 then '-' :: natDigits (-n).toNat else natDigits n.toNat

/-- Embedding of quoteCsvValue from prepublish.sh and buildSite.ts: an
integer value is rendered unquoted; any other value is wrapped in double
quotes after replacing the first embedded double quote with two double
quotes.  Header cells are written by the same quoted-branch expression. -/
def quoteCsvValue : CsvValue → List Char
  | .int n => intToChars n
  | .str s => '"' :: (replaceFirstQuote s ++ ['"'])

/-- C9: quoteCsvValue doubles only the FIRST embedded double quote of a
non-integer field, not each one: the value a"b"c is written as "a""b"c"
(second quote left alone, producing malformed CSV) instead of the claimed
"a""b""c".  Integer fields are indeed written unquoted. -/
theorem quoteCsv_doubles_only_first_quote :
    quoteCsvValue (CsvValue.str ['a', '"', 'b', '"', 'c']) =
        ['"', 'a', '"', '"', 'b', '"', 'c', '"'] ∧
      quoteCsvValue (CsvValue.str ['a', '"', 'b', '"', 'c']) ≠
        ['"', 'a', '"', '"', 'b', '"', '"', 'c', '"'] ∧
      quoteCsvValue (CsvValue.int 42) = ['4', '2'] := by
  refine ⟨rfl, by decide, rfl⟩

/-! Identity assigner (buildUsersFile).  Usernames and user ids are lists
of characters; author keys (author_c) are strings. -/

/-- Character class of the regex used by buildUsersFile's isAlpha
(/[A-Za-z]/i), expressed on character codes: 65..90 are A..Z and 97..122
are a..z. -/
def isAlpha (c : Char) : Bool :=
  (65 ≤ c.toNat && c.toNat ≤ 90) || (97 ≤ c.toNat && c.toNat ≤ 122)

/-- JS String.prototype.toLowerCase restricted to the characters this
pipeline feeds it (ASCII letters): an upper-case letter is shifted down
by 32, anything else is unchanged. -/
def jsToLower (c : Char) : Char :=
  if 65 ≤ c.toNat && c.toNat ≤ 90 then Char.ofNat (c.toNat + 32) else c

/-- Scan of getPrefix: walk the username's characters, appending the
lower-cased character whenever it is alphabetic and the accumulated
prefix is still shorter than 10. -/
def getPrefixFold (username : List Char) : List Char :=
  username.foldl
    (fun pre ch => if pre.length < 10 && isAlpha ch then pre ++ [jsToLower ch] else pre)
    []

/-- Embedding of getPrefix from buildUsersFile: the first up-to-10
alphabetic characters of the username lower-cased, or the literal a when
the username contains no alphabetic character. -/
def getPrefix (username : List Char) : List Char :=
  let p := getPrefixFold username
  if p = [] then ['a'] else p

set_option maxRecDepth 4096 in
lemma char_ofNat_small_toNat : ∀ n, n < 256 → (Char.ofNat n).toNat = n := by decide

lemma isAlpha_jsToLower {c : Char} (h : isAlpha c = true) :
    isAlpha (jsToLower c) = true := by
  unfold isAlpha at h ⊢
  unfold jsToLower
  simp only [Bool.or_eq_true, Bool.and_eq_true, decide_eq_true_eq] at h ⊢
  by_cases hu : 65 ≤ c.toNat ∧ c.toNat ≤ 90
  · rw [if_pos hu]
    have hv : (Char.ofNat (c.toNat + 32)).toNat = c.toNat + 32 :=
      char_ofNat_small_toNat _ (by omega)
    rw [hv]
    omega
  · rw [if_neg hu]
    exact h

lemma digit_not_isAlpha : ∀ d, d < 10 → isAlpha (Char.ofNat (48 + d)) = false := by
  decide

lemma getPrefixFold_alpha (username : List Char) :
    ∀ c ∈ getPrefixFold username, isAlpha c = true := by
  unfold getPrefixFold
  suffices h : ∀ init : List Char, (∀ c ∈ init, isAlpha c = true) →
      ∀ c ∈ username.foldl
        (fun pre ch => if pre.length < 10 && isAlpha ch then pre ++ [jsToLower ch] else pre)
        init, isAlpha c = true by
    exact h [] (by simp)
  induction username with
  | nil => intro init hinit c hc; exact hinit c hc
  | cons ch rest ih =>
      intro init hinit c hc
      simp only [List.foldl_cons] at hc
      refine ih _ ?_ c hc
      intro x hx
      by_cases hcond : (init.length < 10 && isAlpha ch) = true
      · rw [if_pos hcond] at hx
        rw [List.mem_append, List.mem_singleton] at hx
        rcases hx with hx | hx
        · exact hinit x hx
        · subst hx
          exact isAlpha_jsToLower (Bool.and_elim_right hcond)
      · rw [if_neg hcond] at hx
        exact hinit x hx

lemma getPrefix_alpha (username : List Char) :
    getPrefix username ≠ [] ∧ ∀ c ∈ getPrefix username, isAlpha c = true := by
  unfold getPrefix
  by_cases h : getPrefixFold username = []
  · rw [if_pos h]
    refine ⟨by simp, ?_⟩
    intro c hc
    rw [List.mem_singleton] at hc
    subst hc
    decide
  · rw [if_neg h]
    exact ⟨h, getPrefixFold_alpha username⟩

/-- Candidate user ids in the order the while loop of buildUsersFile
tries them: the bare prefix first, then prefix2, prefix3, and so on. -/
def candidateIds (pre : List Char) (n : Nat) : List (List Char) :=
  pre :: (List.range n).map (fun k => pre ++ natDigits (k + 2))

/-- Embedding of the id-claiming while loop of buildUsersFile: starting
from the bare prefix, try prefix, prefix2, prefix3, ... and claim the
first candidate not already assigned.  The candidates are pairwise
distinct, so among the first seen.length + 2 of them at least one is
unassigned and the loop always terminates inside that range; the fallback
branch of the match is unreachable. -/
def pickUserId (seen : List (List Char)) (pre : List Char) : List Char :=
  match (candidateIds pre (seen.length + 1)).find? (fun c => !seen.contains c) with
  | some c => c
  | none => pre

lemma candidateIds_nodup (pre : List Char) (n : Nat) :
    (candidateIds pre n).Nodup := by
  unfold candidateIds
  rw [List.nodup_cons]
  constructor
  · intro hmem
    rw [List.mem_map] at hmem
    obtain ⟨k, _, hk⟩ := hmem
    have hlen := congrArg List.length hk
    rw [List.length_append] at hlen
    have := natDigits_ne_nil (k + 2)
    have : (natDigits (k + 2)).length ≠ 0 := fun h0 => this (List.length_eq_zero.mp h0)
    omega
  · refine List.Nodup.map ?_ (List.nodup_range n)
    intro k1 k2 hk
    have := natDigits_inj (List.append_cancel_left hk)
    omega

lemma candidateIds_length (pre : List Char) (n : Nat) :
    (candidateIds pre n).length = n + 1 := by
  simp [candidateIds]

lemma exists_unseen_candidate (seen : List (List Char)) (pre : List Char) :
    ∃ c ∈ candidateIds pre (seen.length + 1), c ∉ seen := by
  by_contra hall
  push_neg at hall
  have hsub : (candidateIds pre (seen.length + 1)).toFinset ⊆ seen.toFinset := by
    intro c hc
    rw [List.mem_toFinset] at hc ⊢
    exact hall c hc
  have hcard := Finset.card_le_card hsub
  rw [List.toFinset_card_of_nodup (candidateIds_nodup pre _),
    candidateIds_length] at hcard
  have := List.toFinset_card_le seen
  omega

lemma pickUserId_spec (seen : List (List Char)) (pre : List Char) :
    pickUserId seen pre ∉ seen ∧
      (pickUserId seen pre = pre ∨
        ∃ k, 2 ≤ k ∧ pickUserId seen pre = pre ++ natDigits k) := by
  unfold pickUserId
  cases hf : (candidateIds pre (seen.length + 1)).find? (fun c => !seen.contains c) with
  | none =>
      exfalso
      obtain ⟨c, hc, hcs⟩ := exists_unseen_candidate seen pre
      have := List.find?_eq_none.mp hf c hc
      simp at this
      exact hcs this
  | some c =>
      have hpred := List.find?_some hf
      have hmem := List.mem_of_find?_eq_some hf
      simp at hpred
      constructor
      · exact hpred
      · unfold candidateIds at hmem
        rw [List.mem_cons] at hmem
        rcases hmem with h | h
        · exact Or.inl h
        · rw [List.mem_map] at h
          obtain ⟨k, _, hk⟩ := h
          exact Or.inr ⟨k + 2, by omega, hk.symm⟩

lemma pickUserId_of_pre_unseen {seen : List (List Char)} {pre : List Char}
    (h : pre ∉ seen) : pickUserId seen pre = pre := by
  unfold pickUserId candidateIds
  have hc : (fun c => !seen.contains c) pre = true := by simp_all
  have hkey : List.find? (fun c => !seen.contains c)
      (pre :: List.map (fun k => pre ++ natDigits (k + 2))
        (List.range (seen.length + 1))) = some pre :=
    List.find?_cons_of_pos _ hc
  rw [hkey]

/-- Distinct author as returned by the buildUsersFile query: author key
(author_c), display name (MIN(author)) and first post id (MIN(id)). -/
structure Author where
  key : String
  username : List Char
  firstPostId : Nat
deriving DecidableEq, Repr

/-- Order in which the query hands authors to the assignment loop:
ORDER BY MIN(id), author_c — ascending first post id with ties broken by
author key. -/
def authorLT (a b : Author) : Prop :=
  a.firstPostId < b.firstPostId ∨ (a.firstPostId = b.firstPostId ∧ a.key < b.key)

instance : DecidableRel authorLT := fun a b => by
  unfold authorLT
  infer_instance

/-- One iteration of the rs.forEach loop of buildUsersFile: assign to the
author the first free candidate id derived from their name's prefix,
where the already-claimed ids are exactly those assigned so far. -/
def assignStep (acc : List (Author × List Char)) (a : Author) :
    List (Author × List Char) :=
  acc ++ [(a, pickUserId (acc.map (fun p => p.2)) (getPrefix a.username))]

/-- Main loop of buildUsersFile over the ordered author rows. -/
def assignAux (acc : List (Author × List Char)) :
    List Author → List (Author × List Char)
  | [] => acc
  | a :: rest => assignAux (assignStep acc a) rest

/-- Embedding of the shortId assignment of buildUsersFile: processes the
author list in the given (query-sorted) order, claiming ids one by one. -/
def buildUserIds (authors : List Author) : List (Author × List Char) :=
  assignAux [] authors

/-- Shape every assigned id has: the author's own prefix, bare or with a
decimal suffix of at least 2. -/
def validEntry (p : Author × List Char) : Prop :=
  p.2 = getPrefix p.1.username ∨
    ∃ k, 2 ≤ k ∧ p.2 = getPrefix p.1.username ++ natDigits k

lemma assignAux_append (l1 l2 : List Author) (acc : List (Author × List Char)) :
    assignAux acc (l1 ++ l2) = assignAux (assignAux acc l1) l2 := by
  induction l1 generalizing acc with
  | nil => rfl
  | cons a rest ih =>
      show assignAux (assignStep acc a) (rest ++ l2) =
        assignAux (assignAux (assignStep acc a) rest) l2
      exact ih _

lemma assignAux_mono {p : Author × List Char} (l : List Author)
    (acc : List (Author × List Char)) (hp : p ∈ acc) : p ∈ assignAux acc l := by
  induction l generalizing acc with
  | nil => exact hp
  | cons a rest ih =>
      unfold assignAux
      exact ih _ (by unfold assignStep; exact List.mem_append_left _ hp)

lemma assignAux_mem_src {p : Author × List Char} (l : List Author)
    (acc : List (Author × List Char)) (hp : p ∈ assignAux acc l) :
    p ∈ acc ∨ p.1 ∈ l := by
  induction l generalizing acc with
  | nil => exact Or.inl hp
  | cons a rest ih =>
      unfold assignAux at hp
      rcases ih _ hp with h | h
      · unfold assignStep at h
        rw [List.mem_append, List.mem_singleton] at h
        rcases h with h | h
        · exact Or.inl h
        · subst h
          exact Or.inr (List.mem_cons_self _ _)
      · exact Or.inr (List.mem_cons_of_mem _ h)

lemma assignAux_invariant (l : List Author) (acc : List (Author × List Char))
    (hnd : (acc.map (fun p => p.2)).Nodup) (hval : ∀ p ∈ acc, validEntry p) :
    ((assignAux acc l).map (fun p => p.2)).Nodup ∧
      ∀ p ∈ assignAux acc l, validEntry p := by
  induction l generalizing acc with
  | nil => exact ⟨hnd, hval⟩
  | cons a rest ih =>
      unfold assignAux
      have hspec := pickUserId_spec (acc.map (fun p => p.2)) (getPrefix a.username)
      refine ih (assignStep acc a) ?_ ?_
      · unfold assignStep
        rw [List.map_append]
        simp only [List.map_cons, List.map_nil]
        rw [List.nodup_append]
        refine ⟨hnd, List.nodup_singleton _, ?_⟩
        intro x hx
        rw [List.mem_singleton]
        intro hxe
        subst hxe
        exact hspec.1 hx
      · intro p hp
        unfold assignStep at hp
        rw [List.mem_append, List.mem_singleton] at hp
        rcases hp with hp | hp
        · exact hval p hp
        · subst hp
          exact hspec.2

lemma validEntry_ne_pre {p : Author × List Char} (hval : validEntry p)
    {pre : List Char} (hpre : ∀ c ∈ pre, isAlpha c = true)
    (hne : getPrefix p.1.username ≠ pre) : p.2 ≠ pre := by
  rcases hval with h | ⟨k, _, h⟩
  · rw [h]
    exact hne
  · rw [h]
    intro heq
    obtain ⟨c, hc⟩ := List.exists_mem_of_ne_nil _ (natDigits_ne_nil k)
    have hcpre : c ∈ pre := by
      rw [← heq]
      exact List.mem_append_right _ hc
    obtain ⟨d, hd, hcd⟩ := mem_natDigitsGo (k + 1) k hc
    have := hpre c hcpre
    rw [hcd] at this
    rw [digit_not_isAlpha d hd] at this
    cases this

lemma authorLT_irrefl (a : Author) (h : authorLT a a) : False := by
  unfold authorLT at h
  rcases h with h | ⟨_, h⟩
  · omega
  · exact lt_irrefl _ h

lemma authorLT_asymm {a b : Author} (h1 : authorLT a b) (h2 : authorLT b a) :
    False := by
  unfold authorLT at h1 h2
  rcases h1 with h1 | ⟨h1e, h1k⟩ <;> rcases h2 with h2 | ⟨h2e, h2k⟩
  · omega
  · omega
  · omega
  · exact lt_asymm h1k h2k

/-- Author Bob of the claim's scenario: display name Bob, first post 1. -/
def demoBob : Author :=
  { key := "bobkey", username := ['B', 'o', 'b'], firstPostId := 1 }

/-- Author bob99 of the claim's scenario: display name bob99, first post
id 5, whose alphabetic prefix collides with Bob's. -/
def demoBob99 : Author :=
  { key := "ninekey", username := ['b', 'o', 'b', '9', '9'], firstPostId := 5 }

/-- C6: over any author list processed in ascending (first post id,
author key) order, the assignment of buildUsersFile gives pairwise
distinct shortIds; every shortId is the author's own prefix (first up to
10 alphabetic characters of the display name lower-cased, or a) bare or
with a decimal suffix of at least 2; an author earlier than every other
author sharing their prefix receives the bare, unsuffixed prefix; and on
the claim's concrete scenario, Bob (first post 1) receives bob while
bob99 (first post 5) receives bob2. -/
theorem shortId_assignment (authors : List Author)
    (hs : authors.Pairwise authorLT) :
    ((buildUserIds authors).map (fun p => p.2)).Nodup ∧
      (∀ p ∈ buildUserIds authors, validEntry p) ∧
      (∀ a ∈ authors,
        (∀ b ∈ authors, b ≠ a →
            getPrefix b.username = getPrefix a.username → authorLT a b) →
          (a, getPrefix a.username) ∈ buildUserIds authors) ∧
      buildUserIds [demoBob, demoBob99] =
        [(demoBob, ['b', 'o', 'b']), (demoBob99, ['b', 'o', 'b', '2'])] := by
  have hinv := assignAux_invariant authors [] (by simp) (by simp)
  refine ⟨hinv.1, hinv.2, ?_, by decide⟩
  intro a ha hmin
  obtain ⟨l1, l2, rfl⟩ := List.append_of_mem ha
  rw [List.pairwise_append] at hs
  have hl1 : ∀ b ∈ l1, authorLT b a :=
    fun b hb => hs.2.2 b hb a (List.mem_cons_self _ _)
  have hpre_diff : ∀ b ∈ l1, getPrefix b.username ≠ getPrefix a.username := by
    intro b hb heq
    by_cases hba : b = a
    · subst hba
      exact authorLT_irrefl b (hl1 b hb)
    · have hab := hmin b (List.mem_append_left _ hb) hba heq
      exact authorLT_asymm hab (hl1 b hb)
  rw [buildUserIds, assignAux_append]
  have hfree : getPrefix a.username ∉ (assignAux [] l1).map (fun p => p.2) := by
    intro hmem
    rw [List.mem_map] at hmem
    obtain ⟨p, hp, hpid⟩ := hmem
    have hsrc : p.1 ∈ l1 := by
      rcases assignAux_mem_src l1 [] hp with h | h
      · cases h
      · exact h
    have hval := (assignAux_invariant l1 [] (by simp) (by simp)).2 p hp
    exact validEntry_ne_pre hval (getPrefix_alpha a.username).2
      (hpre_diff p.1 hsrc) hpid
  show (a, getPrefix a.username) ∈ assignAux (assignAux [] l1) (a :: l2)
  unfold assignAux
  refine assignAux_mono l2 _ ?_
  unfold assignStep
  rw [pickUserId_of_pre_unseen hfree]
  exact List.mem_append_right _ (List.mem_singleton_self _)

/-- C6 (witness): the assignment theorem applied to the scenario's
two-author list. -/
theorem shortId_assignment_witness :
    ((buildUserIds [demoBob, demoBob99]).map (fun p => p.2)).Nodup ∧
      (demoBob, getPrefix demoBob.username) ∈ buildUserIds [demoBob, demoBob99] := by
  have h := shortId_assignment [demoBob, demoBob99] (by decide)
  refine ⟨h.1, ?_⟩
  refine h.2.2.1 demoBob (by decide) ?_
  intro b hb hne hpre
  rw [List.mem_cons, List.mem_singleton] at hb
  rcases hb with hb | hb
  · exact absurd hb hne
  · subst hb
    decide

end ShackStats
